import Mathlib

/-!
# Verification of the cooperative async/await executor

Shallow embedding of
`src/internals_of_the_async_await_pattern_from_first_principles/….py`:
a single-threaded cooperative scheduler (`Executor`) with a FIFO ready
queue, a deadline-sorted timer queue, two handle→task wait tables, and
suspension primitives (`async_sleep`, `accept`, `recv`, `send`).

Modelling decisions:
* Timestamps are `Int` (Python floats are used only for ordering and
  subtraction here); handles are `Nat`.
* A coroutine is modelled as a `Task`: a list of suspension commands
  (`Cmd`).  One `current.send(None)` in Python runs the body up to the
  next `await` on a suspension primitive, to `StopIteration`, or to an
  unhandled exception; `stepTask` below models exactly one such send.
* `select` and `time.time()` are external inputs; each iteration of the
  `run` loop consumes one `EnvStep` describing what the environment
  returned during that iteration.
* Python's `sorted(…, key=itemgetter(0))` is a stable sort by the first
  component; it is embedded as `List.insertionSort keyLE`, Mathlib's
  stable sort, applied to the same list.
* Python dicts are insertion-ordered; they are embedded as association
  lists where assignment to an existing key updates in place.
-/

namespace AsyncAwait

/-- A point in a task body where it suspends: the argument of the
`await`ed suspension primitive (`async_sleep`, `executor.accept`,
`executor.recv`, `executor.send`). -/
inductive Cmd
  | csleep (duration : Int)
  | caccept (handle : Nat)
  | crecv (handle : Nat)
  | csend (handle : Nat)
  deriving DecidableEq, Repr

/-- A coroutine object.  `pending` is the underlying non-blocking
operation (e.g. `sock.recv`) still to be performed when the task is next
resumed; `cmds` are the remaining suspension points of the body;
`raises` says whether the body ends by raising an unhandled exception
instead of returning (`StopIteration`). -/
structure Task where
  tid : Nat
  pending : Option Cmd
  cmds : List Cmd
  raises : Bool
  deriving DecidableEq, Repr

/-- The mutable attributes of the Python `Executor` class:
`current`, `_ready`, `_scheduled`, `_read_pending`, `_write_pending`. -/
structure ExecState where
  current : Option Task
  ready : List Task
  scheduled : List (Int × Task)
  readPending : List (Nat × Task)
  writePending : List (Nat × Task)
  deriving DecidableEq, Repr

/-- The comparison used by `sorted(self._scheduled, key=itemgetter(0))`:
compare timer-queue entries by their timestamp only. -/
def keyLE (a b : Int × Task) : Prop := a.1 ≤ b.1

instance : DecidableRel keyLE := fun a b => inferInstanceAs (Decidable (a.1 ≤ b.1))

instance : IsTotal (Int × Task) keyLE := ⟨fun a b => Int.le_total a.1 b.1⟩

instance : IsTrans (Int × Task) keyLE := ⟨fun _ _ _ h h' => le_trans h h'⟩

/-- `Executor.submit`: `self._ready.append(coroutine)`. -/
def submit (coroutine : Task) (s : ExecState) : ExecState :=
  { s with ready := s.ready ++ [coroutine] }

/-- `Executor.schedule`: append `(timestamp, coroutine)` to `_scheduled`,
then replace `_scheduled` by its stable sort on the timestamp. -/
def schedule (timestamp : Int) (coroutine : Task) (s : ExecState) : ExecState :=
  { s with scheduled :=
      List.insertionSort keyLE (s.scheduled ++ [(timestamp, coroutine)]) }

/-- The executor state at module load: all containers empty, no current
task. -/
def initState : ExecState :=
  { current := none, ready := [], scheduled := [], readPending := [], writePending := [] }

/-- A sequence of `schedule` calls, performed in order. -/
def scheduleAll (calls : List (Int × Task)) (s : ExecState) : ExecState :=
  calls.foldl (fun st c => schedule c.1 c.2 st) s

/-- Inserting into a list moves the new element past exactly the
strictly-smaller keys, so the sublist of entries with any fixed key `k`
gains the new element at the end when its key is `k` and is untouched
otherwise. -/
theorem filter_key_orderedInsert (a : Int × Task) (l : List (Int × Task)) (k : Int) :
    (l.orderedInsert keyLE a).filter (fun p => decide (p.1 = k)) =
      if a.1 = k then a :: l.filter (fun p => decide (p.1 = k))
      else l.filter (fun p => decide (p.1 = k)) := by
  induction l with
  | nil =>
    simp only [List.orderedInsert, List.filter]
    by_cases h : a.1 = k <;> simp [h]
  | cons b bs ih =>
    rw [List.orderedInsert]
    by_cases h : keyLE a b
    · rw [if_pos h]
      by_cases ha : a.1 = k <;> by_cases hb : b.1 = k <;>
        simp [List.filter_cons, ha, hb]
    · rw [if_neg h]
      have hlt : b.1 < a.1 := by
        have := lt_of_not_le h
        exact this
      by_cases hb : b.1 = k
      · have ha : ¬ a.1 = k := fun ha => h (by simp [keyLE, ha, hb])
        simp [List.filter_cons, hb, ha, ih]
      · by_cases ha : a.1 = k <;> simp [List.filter_cons, hb, ha, ih]

/-- Stability of the sort used by `schedule`: for every key `k`, sorting
does not change the subsequence of entries carrying key `k`. -/
theorem filter_key_insertionSort (l : List (Int × Task)) (k : Int) :
    (List.insertionSort keyLE l).filter (fun p => decide (p.1 = k)) =
      l.filter (fun p => decide (p.1 = k)) := by
  induction l with
  | nil => rfl
  | cons a l ih =>
    rw [List.insertionSort, filter_key_orderedInsert]
    by_cases ha : a.1 = k <;> simp [List.filter_cons, ha, ih]

/-- After any `schedule` call the timer queue is sorted by timestamp. -/
theorem schedule_sorted (timestamp : Int) (coroutine : Task) (s : ExecState) :
    List.Sorted keyLE (schedule timestamp coroutine s).scheduled :=
  List.sorted_insertionSort keyLE _

/-- `schedule` preserves, for each key, the subsequence of entries with
that key, merely appending the new entry when its key matches. -/
theorem schedule_filter_key (timestamp : Int) (coroutine : Task) (s : ExecState) (k : Int) :
    (schedule timestamp coroutine s).scheduled.filter (fun p => decide (p.1 = k)) =
      s.scheduled.filter (fun p => decide (p.1 = k)) ++
        (if timestamp = k then [(timestamp, coroutine)] else []) := by
  unfold schedule
  simp only
  rw [filter_key_insertionSort, List.filter_append]
  by_cases h : timestamp = k <;> simp [List.filter_cons, h]

/-- C4: After every sequence of `schedule` calls starting from the fresh
executor, the timer queue is ordered by ascending deadline, and for every
deadline value `k` the entries with deadline `k` appear exactly in the
order they were inserted (the sort is stable). -/
theorem c4_timer_queue_sorted_and_stable (calls : List (Int × Task)) (k : Int) :
    List.Sorted keyLE (scheduleAll calls initState).scheduled ∧
      (scheduleAll calls initState).scheduled.filter (fun p => decide (p.1 = k)) =
        calls.filter (fun p => decide (p.1 = k)) := by
  induction calls using List.reverseRecOn with
  | nil =>
    constructor
    · simp [scheduleAll, initState]
    · rfl
  | append_singleton calls c ih =>
    have hfold : scheduleAll (calls ++ [c]) initState =
        schedule c.1 c.2 (scheduleAll calls initState) := by
      simp [scheduleAll, List.foldl_append]
    constructor
    · rw [hfold]; exact schedule_sorted _ _ _
    · rw [hfold, schedule_filter_key, ih.2, List.filter_append]
      obtain ⟨t, tk⟩ := c
      by_cases h : t = k
      · subst h; simp [List.filter_cons]
      · simp [List.filter_cons, h]

/-- C10: `submit` changes only the ready queue (appending at the tail) and
`schedule` changes only the timer queue (re-sorted with the new entry);
each leaves the other containers and the `current` marker unchanged. -/
theorem c10_submit_schedule_frame (t : Task) (ts : Int) (s : ExecState) :
    (submit t s).ready = s.ready ++ [t] ∧
      (submit t s).scheduled = s.scheduled ∧
      (submit t s).readPending = s.readPending ∧
      (submit t s).writePending = s.writePending ∧
      (submit t s).current = s.current ∧
      (schedule ts t s).scheduled =
        List.insertionSort keyLE (s.scheduled ++ [(ts, t)]) ∧
      (schedule ts t s).ready = s.ready ∧
      (schedule ts t s).readPending = s.readPending ∧
      (schedule ts t s).writePending = s.writePending ∧
      (schedule ts t s).current = s.current :=
  ⟨rfl, rfl, rfl, rfl, rfl, rfl, rfl, rfl, rfl, rfl⟩

/-! ## The run loop -/

/-- Python dict lookup `d[k]`, as an `Option`. -/
def dictGet (k : Nat) : List (Nat × Task) → Option Task
  | [] => none
  | (k', v) :: rest => if k' = k then some v else dictGet k rest

/-- Python dict assignment `d[k] = v`: dicts are insertion-ordered, and
assigning to an existing key updates the value in place. -/
def dictInsert (k : Nat) (v : Task) : List (Nat × Task) → List (Nat × Task)
  | [] => [(k, v)]
  | (k', v') :: rest =>
    if k' = k then (k, v) :: rest else (k', v') :: dictInsert k v rest

/-- Python `d.pop(k)`, the removal part: drop the key, keeping the order
of the remaining entries. -/
def dictRemove (k : Nat) : List (Nat × Task) → List (Nat × Task)
  | [] => []
  | (k', v') :: rest => if k' = k then rest else (k', v') :: dictRemove k rest

/-- Lines 36-39 of `run`: `for handle in ready: self.submit(d.pop(handle))`.
Returns the shrunk wait table and the popped tasks in submission order.
(`select` only ever reports registered handles; an unregistered handle is
skipped here, a case the source cannot reach.) -/
def popAll (hs : List Nat) (d : List (Nat × Task)) : List (Nat × Task) × List Task :=
  match hs with
  | [] => (d, [])
  | h :: rest =>
    match dictGet h d with
    | some t =>
      let (d', ts) := popAll rest (dictRemove h d)
      (d', t :: ts)
    | none => popAll rest d

/-- Lines 41-46 of `run`: while the timer queue is non-empty and the
*first* entry's deadline is due (`now >= self._scheduled[0][0]`), pop the
*last* entry (`deque.pop()` removes from the right) and submit its task.
Returns the remaining queue and the popped tasks in submission order. -/
def drainTimersGo : Nat → Int → List (Int × Task) → List (Int × Task) × List Task
  | 0, _, q => (q, [])
  | fuel + 1, now, q =>
    match q with
    | [] => ([], [])
    | p :: tl =>
      if now ≥ p.1 then
        match (p :: tl).getLast? with
        | some last =>
          let (q', ts) := drainTimersGo fuel now ((p :: tl).dropLast)
          (q', last.2 :: ts)
        | none => (p :: tl, [])
      else (p :: tl, [])

/-- Lines 41-46 of `run`: while the timer queue is non-empty and the
*first* entry's deadline is due (`now >= self._scheduled[0][0]`), pop the
*last* entry (`deque.pop()` removes from the right) and submit its task.
Returns the remaining queue and the popped tasks in submission order.
Each loop iteration removes one entry, so `q.length` iterations always
suffice (the fuel is only a structural-termination device). -/
def drainTimers (now : Int) (q : List (Int × Task)) : List (Int × Task) × List Task :=
  drainTimersGo q.length now q

/-- Lines 27-30 of `run`: the timeout handed to `select` when the ready
queue is empty.  `none` models Python's `None` ("block indefinitely"). -/
def selectTimeout (sched : List (Int × Task)) (now : Int) : Option Int :=
  match sched with
  | [] => none
  | (wakeupTime, _) :: _ => some (max 0 (wakeupTime - now))

/-- What the outside world supplies during one iteration of the `run`
loop: the clock value read when computing the timeout (line 30), the
handles `select` reports read-ready and write-ready (in the order
reported), the clock value read at line 41, and the clock value
`async_sleep` would read if the task stepped in this iteration calls
it. -/
structure EnvStep where
  tSel : Int
  readReady : List Nat
  writeReady : List Nat
  tNow : Int
  tTask : Int
  deriving DecidableEq, Repr

/-- Lines 26-46 of `run`: the polling pass executed when the ready queue
is empty.  The first component is the timeout passed to `select`
(line 35); it only determines how long the process sleeps.  The state
effect is: submit the task of every read-ready handle, then of every
write-ready handle, then drain the due timers. -/
def pollPass (e : EnvStep) (s : ExecState) : Option Int × ExecState :=
  let timeout := selectTimeout s.scheduled e.tSel
  let (rp, rts) := popAll e.readReady s.readPending
  let (wp, wts) := popAll e.writeReady s.writePending
  let (sch, tts) := drainTimers e.tNow s.scheduled
  (timeout,
    { s with ready := s.ready ++ rts ++ wts ++ tts,
             readPending := rp, writePending := wp, scheduled := sch })

/-- Observable scheduling events, used to state ordering properties of
`run`. -/
inductive Ev
  | resumed (tid : Nat)
  | performedOp (tid : Nat) (c : Cmd)
  | suspended (tid : Nat)
  | completed (tid : Nat)
  | raised (tid : Nat)
  deriving DecidableEq, Repr

/-- How `current.send(None)` returned: the coroutine yielded (via a
suspension primitive), raised `StopIteration` (body returned), or let an
unhandled exception escape. -/
inductive StepOut
  | yielded
  | stopped
  | raised
  deriving DecidableEq, Repr

/-- The operation still owed to the task when it is next resumed: the
statement after `await YieldOnAwait()` in the suspension primitive —
`sock.accept()`, `sock.recv(...)`, `sock.send(...)`.  `async_sleep`
performs no operation on resumption. -/
def opPending : Cmd → Option Cmd
  | .csleep _ => none
  | c => some c

/-- The state mutation each suspension primitive performs before
yielding: record the continuation in the right container (`async_sleep`
lines 90-93 calls `schedule(time.time() + duration, current)`; `accept`
and `recv` set `_read_pending[sock]`; `send` sets
`_write_pending[sock]`), then clear `current`. -/
def suspend (tTask : Int) (c : Cmd) (cont : Task) (s : ExecState) : ExecState :=
  match c with
  | .csleep d => { schedule (tTask + d) cont s with current := none }
  | .caccept h => { s with readPending := dictInsert h cont s.readPending, current := none }
  | .crecv h => { s with readPending := dictInsert h cont s.readPending, current := none }
  | .csend h => { s with writePending := dictInsert h cont s.writePending, current := none }

/-- One `self.current.send(None)` (line 51): perform the operation left
pending by the previous suspension, then run the body to its next
suspension point, to completion, or to an unhandled exception.  The
returned event list records what this send did. -/
def stepTask (tTask : Int) (t : Task) (s : ExecState) : ExecState × List Ev × StepOut :=
  let evs := Ev.resumed t.tid :: (t.pending.map (Ev.performedOp t.tid)).toList
  match t.cmds with
  | [] =>
    if t.raises then (s, evs ++ [Ev.raised t.tid], .raised)
    else (s, evs ++ [Ev.completed t.tid], .stopped)
  | c :: rest =>
    let cont : Task := { t with pending := opPending c, cmds := rest }
    (suspend tTask c cont s, evs ++ [Ev.suspended t.tid], .yielded)

/-- How `run()` can end: return normally, run out of supplied environment
steps (the loop is still going), let a task's exception propagate out, or
raise `IndexError` on `popleft` from an empty ready queue. -/
inductive RunResult
  | finished (s : ExecState)
  | stuck
  | taskError (tid : Nat)
  | indexError
  deriving DecidableEq, Repr

/-- Line 25: `while any([self._ready, self._scheduled,
self._read_pending, self._write_pending])`. -/
def loopCond (s : ExecState) : Bool :=
  !s.ready.isEmpty || !s.scheduled.isEmpty ||
    !s.readPending.isEmpty || !s.writePending.isEmpty

/-- Result of one iteration of the `run` loop body. -/
inductive IterRes
  | next (s : ExecState) (evs : List Ev)
  | halt (r : RunResult) (evs : List Ev)
  deriving DecidableEq, Repr

/-- One iteration of the `run` loop body (lines 26-57): poll if the ready
queue is empty, pop the queue head into `current` (popping an empty deque
raises `IndexError`), send it once, and re-submit it only when `current`
is still set — it never is after a suspension primitive, and after
`StopIteration` the check is skipped, so `current` keeps pointing at the
finished task. -/
def iterate (e : EnvStep) (s : ExecState) : IterRes :=
  let s1 := if s.ready.isEmpty then (pollPass e s).2 else s
  match s1.ready with
  | [] => .halt .indexError []
  | t :: tl =>
    let s2 := { s1 with ready := tl, current := some t }
    match stepTask e.tTask t s2 with
    | (_, evs, .raised) => .halt (.taskError t.tid) evs
    | (s3, evs, .stopped) => .next s3 evs
    | (s3, evs, .yielded) =>
      match s3.current with
      | some c => .next { s3 with ready := s3.ready ++ [c], current := none } evs
      | none => .next s3 evs

/-- `Executor.run` (lines 24-57), driven by one `EnvStep` per loop
iteration, together with the trace of scheduling events. -/
def runAux (envs : List EnvStep) (s : ExecState) : RunResult × List Ev :=
  if loopCond s then
    match envs with
    | [] => (.stuck, [])
    | e :: rest =>
      match iterate e s with
      | .halt r evs => (r, evs)
      | .next s' evs =>
        let (r, evs') := runAux rest s'
        (r, evs ++ evs')
  else (.finished s, [])

/-! ## Concrete tasks, environments and the demo echo handler -/

/-- A fixed concrete task that completes immediately when first resumed. -/
def tsk (n : Nat) : Task := ⟨n, none, [], false⟩

/-- A fixed concrete task that raises an unhandled exception when first
resumed. -/
def tErr : Task := ⟨9, none, [], true⟩

/-- A fixed environment step with empty poll results and clock 0. -/
def env0 : EnvStep := ⟨0, [], [], 0, 0⟩

/-- The environment of the failing run for claim C1: no I/O handles, and
the clock reads 2 at every probe. -/
def c1Env : EnvStep := ⟨2, [], [], 2, 0⟩

/-- The bytes of the literal `b'echo '`. -/
def echoLit : List Nat := [101, 99, 104, 111, 32]

/-- `echo_handler` (lines 132-139) as a function of the successive
chunks returned by `executor.recv`: each truthy chunk is answered by
sending `b'echo ' + data`, a falsy (empty) chunk breaks the loop, after
which the handler closes the socket and terminates.  Result: the chunks
sent, and whether `sock.close()` was reached (`false` means the supplied
chunk list ran out with the handler still waiting in `recv`). -/
def echoHandler : List (List Nat) → List (List Nat) × Bool
  | [] => ([], false)
  | data :: rest =>
    if data = [] then ([], true)
    else
      let (out, closed) := echoHandler rest
      ((echoLit ++ data) :: out, closed)

/-! ## Supporting lemmas -/

theorem loopCond_eq_false_iff (s : ExecState) :
    loopCond s = false ↔
      s.ready = [] ∧ s.scheduled = [] ∧ s.readPending = [] ∧ s.writePending = [] := by
  simp only [loopCond, Bool.or_eq_false_iff, Bool.not_eq_false', List.isEmpty_iff]
  tauto

theorem iterate_halt_result (e : EnvStep) (s : ExecState) (r : RunResult) (evs : List Ev)
    (h : iterate e s = .halt r evs) :
    r = .indexError ∨ ∃ tid, r = .taskError tid := by
  simp only [iterate] at h
  split at h
  · cases h
    exact Or.inl rfl
  · split at h
    · cases h
      exact Or.inr ⟨_, rfl⟩
    · cases h
    · split at h <;> cases h

theorem runAux_finished_loopCond (envs : List EnvStep) :
    ∀ (s s' : ExecState) (evs : List Ev),
      runAux envs s = (.finished s', evs) → loopCond s' = false := by
  induction envs with
  | nil =>
    intro s s' evs h
    by_cases hc : loopCond s
    · simp [runAux, hc] at h
    · rw [runAux, if_neg (by simp [hc])] at h
      obtain ⟨h1, -⟩ := Prod.mk.injEq .. ▸ h
      cases h
      simpa using hc
  | cons e rest ih =>
    intro s s' evs h
    by_cases hc : loopCond s
    · rw [runAux, if_pos hc] at h
      cases hi : iterate e s with
      | halt r evs2 =>
        rw [hi] at h
        rcases iterate_halt_result e s r evs2 hi with h3 | ⟨tid, h3⟩ <;> subst h3 <;>
          simp at h
      | next s2 evs2 =>
        rw [hi] at h
        dsimp only at h
        cases hrr : runAux rest s2 with
        | mk r' evs' =>
          rw [hrr] at h
          simp only [Prod.mk.injEq] at h
          exact ih s2 s' evs' (h.1 ▸ hrr)
    · rw [runAux, if_neg (by simp [hc])] at h
      cases h
      simpa using hc

theorem dictGet_dictRemove (k k' : Nat) (d : List (Nat × Task)) (h : k' ≠ k) :
    dictGet k' (dictRemove k d) = dictGet k' d := by
  induction d with
  | nil => rfl
  | cons p rest ih =>
    obtain ⟨k0, v0⟩ := p
    by_cases h0 : k0 = k
    · subst h0
      have hk : ¬ k0 = k' := fun hh => h (hh ▸ rfl)
      simp [dictRemove, dictGet, hk]
    · by_cases h1 : k0 = k' <;> simp [dictRemove, dictGet, h0, h1, ih, h]

theorem popAll_eq_filterMap (hs : List Nat) (d : List (Nat × Task)) (hnd : hs.Nodup) :
    (popAll hs d).2 = hs.filterMap (fun h => dictGet h d) := by
  induction hs generalizing d with
  | nil => rfl
  | cons h rest ih =>
    obtain ⟨hmem, hnd'⟩ := List.nodup_cons.mp hnd
    cases hg : dictGet h d with
    | none => simp [popAll, hg, List.filterMap_cons, ih d hnd']
    | some t =>
      cases hpr : popAll rest (dictRemove h d) with
      | mk d' ts =>
        have h1 := ih (dictRemove h d) hnd'
        rw [hpr] at h1
        dsimp only at h1
        simp only [popAll, hg, hpr, List.filterMap_cons]
        rw [h1]
        exact congrArg (t :: ·)
          (List.filterMap_congr fun x hx =>
            dictGet_dictRemove h x d (fun hh => hmem (hh ▸ hx)))

theorem pollPass_fst (e : EnvStep) (s : ExecState) :
    (pollPass e s).1 = selectTimeout s.scheduled e.tSel := by
  cases hpr : popAll e.readReady s.readPending with
  | mk rp rts =>
    cases hpw : popAll e.writeReady s.writePending with
    | mk wp wts =>
      cases hdt : drainTimers e.tNow s.scheduled with
      | mk sch tts => simp [pollPass, hpr, hpw, hdt]

theorem drainTimersGo_fst_sorted (fuel : Nat) (now : Int) :
    ∀ q : List (Int × Task), List.Sorted keyLE q →
      List.Sorted keyLE (drainTimersGo fuel now q).1 := by
  induction fuel with
  | zero => intro q hq; exact hq
  | succ f ih =>
    intro q hq
    match q with
    | [] => exact List.sorted_nil
    | p :: tl =>
      by_cases hnow : now ≥ p.1
      · cases hgl : (p :: tl).getLast? with
        | none => simp only [drainTimersGo, if_pos hnow, hgl]; exact hq
        | some last =>
          have hsub : List.Sorted keyLE ((p :: tl).dropLast) :=
            List.Pairwise.sublist (List.dropLast_sublist (p :: tl)) hq
          have hrec := ih ((p :: tl).dropLast) hsub
          cases hgo : drainTimersGo f now ((p :: tl).dropLast) with
          | mk q' ts =>
            rw [hgo] at hrec
            simp only [drainTimersGo, if_pos hnow, hgl, hgo]
            exact hrec
      · simp only [drainTimersGo, if_neg hnow]; exact hq

/-- Besides `schedule` (which sorts), the only mutation of the timer
queue at run time is the drain loop, and it keeps the queue sorted: so
the sortedness hypothesis of the timeout claim holds whenever `run`
polls. -/
theorem drainTimers_fst_sorted (now : Int) (q : List (Int × Task))
    (hq : List.Sorted keyLE q) : List.Sorted keyLE (drainTimers now q).1 :=
  drainTimersGo_fst_sorted q.length now q hq

/-! ## Claims C2, C5, C6 -/

/-- C2: `run()` returns exactly when the Ready Queue, the Timer Queue and
both wait-table directions are simultaneously empty: whenever `run`
returns normally the final state has all four containers empty, and from
a state with all four containers empty `run` returns at once. -/
theorem c2_run_returns_iff_containers_empty (envs : List EnvStep) (s s' : ExecState)
    (evs : List Ev) :
    (runAux envs s = (.finished s', evs) →
      s'.ready = [] ∧ s'.scheduled = [] ∧ s'.readPending = [] ∧ s'.writePending = []) ∧
    (s.ready = [] ∧ s.scheduled = [] ∧ s.readPending = [] ∧ s.writePending = [] →
      runAux envs s = (.finished s, [])) := by
  constructor
  · intro h
    exact (loopCond_eq_false_iff s').mp (runAux_finished_loopCond envs s s' evs h)
  · intro h
    have hc : loopCond s = false := (loopCond_eq_false_iff s).mpr h
    rw [runAux.eq_def, if_neg (by simp [hc])]

theorem c2_run_returns_iff_containers_empty_witness :
    (initState.ready = [] ∧ initState.scheduled = [] ∧ initState.readPending = [] ∧
      initState.writePending = []) ∧
    runAux [] initState = (.finished initState, []) :=
  ⟨(c2_run_returns_iff_containers_empty [] initState initState []).1 rfl,
   (c2_run_returns_iff_containers_empty [] initState initState []).2 ⟨rfl, rfl, rfl, rfl⟩⟩

/-- C5: within one polling pass (ready queue empty), the tasks of all
handles reported ready are appended to the ready queue — read-ready ones
first, in the order `select` reported them, then write-ready ones in
reported order — and only after all of them come the tasks popped from
the timer queue. -/
theorem c5_io_ready_before_due_timers (e : EnvStep) (s : ExecState)
    (hr : e.readReady.Nodup) (hw : e.writeReady.Nodup) :
    (pollPass e s).2.ready =
      s.ready ++ e.readReady.filterMap (fun h => dictGet h s.readPending)
        ++ e.writeReady.filterMap (fun h => dictGet h s.writePending)
        ++ (drainTimers e.tNow s.scheduled).2 := by
  cases hpr : popAll e.readReady s.readPending with
  | mk rp rts =>
    cases hpw : popAll e.writeReady s.writePending with
    | mk wp wts =>
      cases hdt : drainTimers e.tNow s.scheduled with
      | mk sch tts =>
        have h1 := popAll_eq_filterMap e.readReady s.readPending hr
        have h2 := popAll_eq_filterMap e.writeReady s.writePending hw
        rw [hpr] at h1
        rw [hpw] at h2
        simp [pollPass, hpr, hpw, hdt, h1, h2]

theorem c5_io_ready_before_due_timers_witness :
    (pollPass ⟨0, [5], [], 0, 0⟩
      { initState with readPending := [(5, tsk 2)] }).2.ready = [tsk 2] := by
  rw [c5_io_ready_before_due_timers ⟨0, [5], [], 0, 0⟩
    { initState with readPending := [(5, tsk 2)] } (by decide) (by decide)]
  decide

/-- C6: when the ready queue is empty, the timeout handed to `select` is
`max 0 (earliest deadline - now)` if the timer queue is non-empty (the
head of the sorted timer queue carries the minimal deadline), is `None`
("block indefinitely") if the timer queue is empty, and is never
negative. -/
theorem c6_select_timeout (e : EnvStep) (s : ExecState)
    (hsort : List.Sorted keyLE s.scheduled) :
    (s.scheduled = [] → (pollPass e s).1 = none) ∧
    (∀ p rest, s.scheduled = p :: rest →
      (pollPass e s).1 = some (max 0 (p.1 - e.tSel)) ∧ ∀ q ∈ s.scheduled, p.1 ≤ q.1) ∧
    (∀ v, (pollPass e s).1 = some v → 0 ≤ v) := by
  refine ⟨fun h => ?_, fun p rest h => ⟨?_, ?_⟩, fun v hv => ?_⟩
  · rw [pollPass_fst, h]
    rfl
  · obtain ⟨w, tk⟩ := p
    rw [pollPass_fst, h]
    rfl
  · rw [h] at hsort ⊢
    rw [List.sorted_cons] at hsort
    intro q hq
    rcases List.mem_cons.mp hq with rfl | hq'
    · exact le_refl _
    · exact hsort.1 q hq'
  · rw [pollPass_fst] at hv
    cases hs : s.scheduled with
    | nil => rw [hs] at hv; cases hv
    | cons p rest =>
      obtain ⟨w, tk⟩ := p
      rw [hs] at hv
      simp only [selectTimeout, Option.some.injEq] at hv
      rw [← hv]
      exact le_max_left 0 (w - e.tSel)

theorem c6_select_timeout_witness :
    (pollPass ⟨0, [], [], 0, 0⟩ (schedule 1 (tsk 0) initState)).1 = some 1 := by
  have h := (c6_select_timeout ⟨0, [], [], 0, 0⟩ (schedule 1 (tsk 0) initState)
    (by decide)).2.1 (1, tsk 0) [] (by decide)
  simpa using h.1

/-! ## Claim C3: non-suspending tasks run to completion in FIFO order -/

theorem runAux_trivial (ts : List Task) :
    ∀ (envs : List EnvStep) (cur : Option Task),
      ts.length ≤ envs.length →
      (∀ t ∈ ts, t.cmds = [] ∧ t.raises = false ∧ t.pending = none) →
      ∃ s', runAux envs ⟨cur, ts, [], [], []⟩ =
          (.finished s', ts.flatMap fun t => [Ev.resumed t.tid, Ev.completed t.tid]) ∧
        s'.ready = [] ∧ s'.scheduled = [] ∧ s'.readPending = [] ∧ s'.writePending = [] := by
  induction ts with
  | nil =>
    intro envs cur _ _
    refine ⟨⟨cur, [], [], [], []⟩, ?_, rfl, rfl, rfl, rfl⟩
    rw [runAux.eq_def]
    simp [loopCond]
  | cons t ts' ih =>
    intro envs cur hlen hts
    cases envs with
    | nil => simp at hlen
    | cons e rest =>
      obtain ⟨hc, hr, hp⟩ := hts t (List.mem_cons_self t ts')
      have hts' : ∀ x ∈ ts', x.cmds = [] ∧ x.raises = false ∧ x.pending = none :=
        fun x hx => hts x (List.mem_cons_of_mem t hx)
      obtain ⟨s', hrun, h1, h2, h3, h4⟩ :=
        ih rest (some t) (by simpa using hlen) hts'
      refine ⟨s', ?_, h1, h2, h3, h4⟩
      rw [runAux.eq_def]
      have hlc : loopCond ⟨cur, t :: ts', [], [], []⟩ = true := by simp [loopCond]
      rw [if_pos hlc]
      have hit : iterate e ⟨cur, t :: ts', [], [], []⟩ =
          .next ⟨some t, ts', [], [], []⟩ [Ev.resumed t.tid, Ev.completed t.tid] := by
        simp [iterate, stepTask, hc, hr, hp]
      dsimp only
      rw [hit]
      dsimp only
      rw [hrun]
      simp

/-- C3: a batch of submitted tasks that never reach a suspension
primitive (no commands, no exception) is executed by `run()` one task per
loop iteration, each resumed once and run to completion before the next
is touched, in FIFO submission order; `run` then returns with all
containers empty. -/
theorem c3_nonsuspending_fifo (ts : List Task) (envs : List EnvStep)
    (hlen : ts.length ≤ envs.length)
    (hts : ∀ t ∈ ts, t.cmds = [] ∧ t.raises = false ∧ t.pending = none) :
    ∃ s', runAux envs { initState with ready := ts } =
        (.finished s', ts.flatMap fun t => [Ev.resumed t.tid, Ev.completed t.tid]) ∧
      s'.ready = [] ∧ s'.scheduled = [] ∧ s'.readPending = [] ∧ s'.writePending = [] :=
  runAux_trivial ts envs none hlen hts

theorem c3_nonsuspending_fifo_witness :
    (runAux [env0, env0] { initState with ready := [tsk 0, tsk 1] }).2 =
      [Ev.resumed 0, Ev.completed 0, Ev.resumed 1, Ev.completed 1] := by
  obtain ⟨s', hrun, -⟩ :=
    c3_nonsuspending_fifo [tsk 0, tsk 1] [env0, env0] (by decide) (by decide)
  rw [hrun]
  rfl

/-! ## Claim C7: unhandled errors halt the scheduler, completions are absorbed -/

/-- C7: if the task at the head of the ready queue raises an unhandled
exception when stepped, `run` halts at once with that error — nothing
else in the trace, no other task resumed; if instead that task completes
normally, `run` silently continues with the remaining work, the overall
result being whatever the rest of the loop produces. -/
theorem c7_error_halts_completion_absorbed (e : EnvStep) (envs : List EnvStep)
    (tE tD : Task) (ts : List Task) (s : ExecState)
    (hE : tE.cmds = [] ∧ tE.raises = true ∧ tE.pending = none)
    (hD : tD.cmds = [] ∧ tD.raises = false ∧ tD.pending = none) :
    runAux (e :: envs) { s with ready := tE :: ts } =
        (.taskError tE.tid, [Ev.resumed tE.tid, Ev.raised tE.tid]) ∧
    runAux (e :: envs) { s with ready := tD :: ts } =
        ((runAux envs { s with ready := ts, current := some tD }).1,
          [Ev.resumed tD.tid, Ev.completed tD.tid] ++
            (runAux envs { s with ready := ts, current := some tD }).2) := by
  constructor
  · rw [runAux.eq_def, if_pos (by simp [loopCond])]
    have hit : iterate e { s with ready := tE :: ts } =
        .halt (.taskError tE.tid) [Ev.resumed tE.tid, Ev.raised tE.tid] := by
      simp [iterate, stepTask, hE.1, hE.2.1, hE.2.2]
    dsimp only
    rw [hit]
  · rw [runAux.eq_def, if_pos (by simp [loopCond])]
    have hit : iterate e { s with ready := tD :: ts } =
        .next { s with ready := ts, current := some tD }
          [Ev.resumed tD.tid, Ev.completed tD.tid] := by
      simp [iterate, stepTask, hD.1, hD.2.1, hD.2.2]
    dsimp only
    rw [hit]

theorem c7_error_halts_completion_absorbed_witness :
    runAux [env0] { initState with ready := [tErr] } =
        (.taskError 9, [Ev.resumed 9, Ev.raised 9]) ∧
    runAux [env0] { initState with ready := [tsk 3] } =
        ((runAux [] { initState with ready := [], current := some (tsk 3) }).1,
          [Ev.resumed 3, Ev.completed 3] ++
            (runAux [] { initState with ready := [], current := some (tsk 3) }).2) :=
  c7_error_halts_completion_absorbed env0 [] tErr (tsk 3) [] initState
    (by decide) (by decide)

/-! ## Claim C8: shape of the suspension primitives -/

/-- C8: a running task `t` whose next action is the suspension command
`c` behaves, over one `send`, exactly as the primitives do: it records
its continuation in the timer queue (`async_sleep`, at deadline
`now + duration`, re-sorting) or in the matching wait-table entry
(`accept`/`recv` read-direction, `send` write-direction), clears the
`current` marker, leaves the ready queue untouched, and returns control
to the scheduler by yielding (one `stepTask` is one `send`, hence one
yield); consequently the loop body does not re-enqueue it.  On its next
resumption the continuation first performs the underlying operation of
`c` (its result is what the primitive returns to the task body) before
anything else happens. -/
theorem c8_suspension_primitives (tT tT2 : Int) (t : Task) (c : Cmd) (rest : List Cmd)
    (s s2 : ExecState) (h : t.cmds = c :: rest) :
    (stepTask tT t s).2.2 = .yielded ∧
    (stepTask tT t s).1.current = none ∧
    (stepTask tT t s).1.ready = s.ready ∧
    (∀ d, c = .csleep d →
      (stepTask tT t s).1.scheduled =
          List.insertionSort keyLE
            (s.scheduled ++ [(tT + d, { t with pending := none, cmds := rest })]) ∧
        (stepTask tT t s).1.readPending = s.readPending ∧
        (stepTask tT t s).1.writePending = s.writePending) ∧
    (∀ hd, c = .caccept hd ∨ c = .crecv hd →
      (stepTask tT t s).1.readPending =
          dictInsert hd { t with pending := some c, cmds := rest } s.readPending ∧
        (stepTask tT t s).1.scheduled = s.scheduled ∧
        (stepTask tT t s).1.writePending = s.writePending) ∧
    (∀ hd, c = .csend hd →
      (stepTask tT t s).1.writePending =
          dictInsert hd { t with pending := some c, cmds := rest } s.writePending ∧
        (stepTask tT t s).1.scheduled = s.scheduled ∧
        (stepTask tT t s).1.readPending = s.readPending) ∧
    (∀ (e : EnvStep) (tl : List Task), e.tTask = tT →
      iterate e { s with ready := t :: tl } =
        .next (stepTask tT t { s with ready := tl, current := some t }).1
          (stepTask tT t { s with ready := tl, current := some t }).2.1) ∧
    (∃ tail, (stepTask tT2 { t with pending := opPending c, cmds := rest } s2).2.1 =
        Ev.resumed t.tid :: ((opPending c).map (Ev.performedOp t.tid)).toList ++ tail) := by
  refine ⟨?_, ?_, ?_, ?_, ?_, ?_, ?_, ?_⟩
  · simp [stepTask, h]
  · cases c <;> simp [stepTask, h, suspend, schedule]
  · cases c <;> simp [stepTask, h, suspend, schedule]
  · rintro d rfl
    refine ⟨?_, ?_, ?_⟩ <;> simp [stepTask, h, suspend, schedule, opPending]
  · rintro hd (rfl | rfl) <;>
      exact ⟨by simp [stepTask, h, suspend, opPending], by simp [stepTask, h, suspend],
        by simp [stepTask, h, suspend]⟩
  · rintro hd rfl
    exact ⟨by simp [stepTask, h, suspend, opPending], by simp [stepTask, h, suspend],
      by simp [stepTask, h, suspend]⟩
  · rintro e tl rfl
    cases c <;> simp [iterate, stepTask, h, suspend, schedule]
  · cases rest with
    | nil =>
      refine ⟨if t.raises then [Ev.raised t.tid] else [Ev.completed t.tid], ?_⟩
      by_cases hb : t.raises <;> simp [stepTask, hb]
    | cons c2 r2 => exact ⟨[Ev.suspended t.tid], by simp [stepTask]⟩

theorem c8_suspension_primitives_witness :
    (stepTask 0 ⟨4, none, [.crecv 7], false⟩ initState).2.2 = .yielded ∧
    (stepTask 0 ⟨4, none, [.crecv 7], false⟩ initState).1.current = none ∧
    (stepTask 0 ⟨4, none, [.crecv 7], false⟩ initState).1.readPending =
      dictInsert 7 ⟨4, some (.crecv 7), [], false⟩ [] := by
  have h := c8_suspension_primitives 0 0 ⟨4, none, [.crecv 7], false⟩ (.crecv 7) []
    initState initState rfl
  exact ⟨h.1, h.2.1, (h.2.2.2.2.1 7 (Or.inr rfl)).1⟩

/-! ## Claim C1: timer-queue resumption order -/

/-- C1 fails on the code: after `schedule(1, A)` then `schedule(3, B)`
(deadlines 1 < 3, task ids 0 and 1), running with the clock at 2 resumes
B strictly *before* A — and B's deadline has not even arrived.  The drain
loop at lines 42-46 tests the deadline of `_scheduled[0]` but
`_scheduled.pop()` removes from the *right* end of the sorted deque, so
the latest deadline is submitted first. -/
theorem c1_code_resumes_later_deadline_first :
    (runAux [c1Env, c1Env, c1Env]
        (schedule 3 (tsk 1) (schedule 1 (tsk 0) initState))).2 =
      [Ev.resumed 1, Ev.completed 1, Ev.resumed 0, Ev.completed 0] := by
  decide

/-! ## Claim C9: the echo handler -/

/-- C9: `echo_handler` answers every inbound chunk with exactly the
5-byte literal `"echo "` followed by the exact bytes received; on an
empty read it closes the connection and terminates, sending nothing
further (chunks after the empty one produce no output); while no empty
chunk arrives it keeps answering and has not closed. -/
theorem c9_echo_handler (pre post : List (List Nat)) (hpre : ∀ ch ∈ pre, ch ≠ []) :
    echoLit.length = 5 ∧
    echoHandler (pre ++ [] :: post) = (pre.map fun ch => echoLit ++ ch, true) ∧
    (∀ chunks : List (List Nat), (∀ ch ∈ chunks, ch ≠ []) →
      echoHandler chunks = (chunks.map fun ch => echoLit ++ ch, false)) := by
  refine ⟨rfl, ?_, ?_⟩
  · induction pre with
    | nil => simp [echoHandler]
    | cons d pre' ih =>
      have hd : d ≠ [] := hpre d (List.mem_cons_self d pre')
      have ih' := ih fun ch hch => hpre ch (List.mem_cons_of_mem d hch)
      simp [echoHandler, if_neg hd, ih']
  · intro chunks hch
    induction chunks with
    | nil => rfl
    | cons d rest ih =>
      have hd : d ≠ [] := hch d (List.mem_cons_self d rest)
      have ih' := ih fun ch hc => hch ch (List.mem_cons_of_mem d hc)
      simp [echoHandler, if_neg hd, ih']

theorem c9_echo_handler_witness :
    echoHandler [[104, 105], []] =
      ([[101, 99, 104, 111, 32, 104, 105]], true) := by
  have h := c9_echo_handler [[104, 105]] [] (by decide)
  simpa [echoLit] using h.2.1

end AsyncAwait
